import Mathlib

/-!
Verification development for the vc batch WebM conversion tool.

The definitions below are shallow embeddings of the JavaScript sources:
  src/src/ffmpegUtils.js      (getMediaInfo, convertToWebm, moveFailedFile)
  src/src/crfUtils.js         (DEFAULT_CRF, determineCrf)
  src/src/parallelProcessor.js (processFile, runParallelProcessing)

Modelling conventions:
  * A filesystem path is a list of components (absolute, root first);
    path.dirname is List.dropLast, path.basename is List.getLastD,
    path.join is list append, path.relative from a prefix is List.drop.
  * The filesystem is the set of existing regular files, as a list of paths
    (directories are implicit; mkdirSync is a no-op in the model).
  * External process results (ffprobe, ffmpeg) and fallible filesystem
    operations are oracles passed in explicitly, so the embedded functions
    are total and executable.
  * JavaScript numbers that hold parseInt results are modelled as Int, with
    none standing for NaN; the float division bitRate / 1_000_000 is modelled
    by exact rational division, which agrees with IEEE double comparison
    against the integer thresholds used here for every integer bitRate.
-/

namespace VC

abbrev Path := List String

abbrev FS := List Path

/-- Set-like insert into the file list (a path exists at most once). -/
def fsInsert (fs : FS) (p : Path) : FS :=
  if p ∈ fs then fs else p :: fs

/-- Deleting a file: remove every occurrence of the path. -/
def fsErase (fs : FS) (p : Path) : FS :=
  fs.filter (fun q => q ≠ p)

/-- The name part of a filename per node path.parse: everything before the
last dot, or the whole name when it has no dot.  (Names consisting of a
single leading-dot component do not occur in this development.) -/
def stem (s : String) : String :=
  let r := s.toList.reverse
  if '.' ∈ r then String.mk (((r.dropWhile (fun c => c ≠ '.')).drop 1).reverse)
  else s

/-- The output path computed at the top of convertToWebm:
path.join(parsedPath.dir, parsedPath.name + ".webm"). -/
def outputPath (p : Path) : Path :=
  p.dropLast ++ [stem (p.getLastD "") ++ ".webm"]

/-- The quarantine destination computed inside moveFailedFile
(ffmpegUtils.js lines 85-109): the parent of the conversion root, then a
directory named "@failed_vc_" ++ basename(root), then the path of the file
relative to the root (or just its basename when the file is not under the
root, the startsWith ".." guard in the source). -/
def quarantinePath (rootDir filePath : Path) : Path :=
  let parentDir := rootDir.dropLast
  let targetDirName := rootDir.getLastD ""
  let safeRelativePath :=
    if rootDir.isPrefixOf filePath then filePath.drop rootDir.length
    else [filePath.getLastD ""]
  parentDir ++ ["@failed_vc_" ++ targetDirName] ++ safeRelativePath

/-- moveFailedFile from ffmpegUtils.js: rename the source into the
quarantine directory.  moveOk models the try/catch around mkdirSync and
renameSync: when the move fails it is only logged and the filesystem is
left as it was.  When the source no longer exists the function only logs. -/
def moveFailedFile (moveOk : Bool) (fs : FS) (filePath rootDir : Path) : FS :=
  if moveOk then
    if filePath ∈ fs then fsInsert (fsErase fs filePath) (quarantinePath rootDir filePath)
    else fs
  else fs

/-- Terminal statuses of one file pipeline.  The first seven are the string
literals returned in the source; error_spawning is the spec vocabulary for a
spawn failure outcome (the source never returns it, see claim C3). -/
inductive Status where
  | converted
  | skipped_dry_run
  | skipped_exists
  | error_deleting
  | error_converting
  | error_task_internal
  | error_runner_internal
  | error_spawning
  deriving DecidableEq, Repr

/-- Result of the attempt to run the external encoder, as distinguished by
runCommandAsync (ffmpegUtils.js lines 7-35): exit code 0 resolves, a nonzero
exit code rejects with type command_error, a spawn failure rejects with type
spawn_error. -/
inductive EncodeResult where
  | success
  | exitNonzero
  | spawnError
  deriving DecidableEq, Repr

/-- Oracles for the external encoder and the fallible filesystem calls made
by one convertToWebm invocation. -/
structure ConvEnv where
  encodeResult : EncodeResult
  /-- whether a failing encoder run left a partly written output file -/
  outputLeftover : Bool
  /-- whether fs.unlinkSync on the source succeeds after a successful encode -/
  unlinkSourceOk : Bool
  /-- whether fs.unlinkSync on the leftover output succeeds -/
  cleanupOk : Bool
  /-- whether the quarantine mkdirSync plus renameSync succeed -/
  moveOk : Bool
  deriving DecidableEq, Repr

/-- convertToWebm from ffmpegUtils.js lines 112-175.  The crf argument only
feeds the encoder command line, so it does not influence the result in the
model.  Returns the status string, the filesystem afterwards, and whether
the encoder was invoked. -/
def convertToWebm (env : ConvEnv) (fs : FS) (filePath : Path) (dryRun : Bool)
    (crf : Int) (rootDir : Path) : Status × FS × Bool :=
  let out := outputPath filePath
  if dryRun then (.skipped_dry_run, fs, false)
  else if out ∈ fs then (.skipped_exists, fs, false)
  else
    match env.encodeResult with
    | .success =>
      -- ffmpeg exited 0 and wrote the output file
      let fs1 := fsInsert fs out
      if env.unlinkSourceOk then (.converted, fsErase fs1 filePath, true)
      else (.error_deleting, fs1, true)
    | .exitNonzero =>
      let fs1 := if env.outputLeftover then fsInsert fs out else fs
      let fs2 := if out ∈ fs1 then (if env.cleanupOk then fsErase fs1 out else fs1) else fs1
      (.error_converting, moveFailedFile env.moveOk fs2 filePath rootDir, true)
    | .spawnError =>
      let fs1 := if env.outputLeftover then fsInsert fs out else fs
      let fs2 := if out ∈ fs1 then (if env.cleanupOk then fsErase fs1 out else fs1) else fs1
      (.error_converting, moveFailedFile env.moveOk fs2 filePath rootDir, true)

/-- One stream object of the parsed ffprobe JSON.  Each field holds the
parseInt result of the corresponding JSON field; none stands for a missing
field or a NaN parse (for bit_rate also for a falsy raw value, matching
stream.bit_rate ? parseInt(stream.bit_rate, 10) : NaN). -/
structure JsonStream where
  width : Option Int
  height : Option Int
  bit_rate : Option Int
  deriving DecidableEq, Repr

/-- The observable result of running ffprobe through runCommandAsync and
JSON.parse on its stdout. -/
inductive ProbeOutcome where
  /-- the ffprobe process could not be spawned (type spawn_error) -/
  | spawnFailed
  /-- ffprobe exited with a nonzero code (type command_error) -/
  | exitedNonzero
  /-- ffprobe exited 0 but JSON.parse threw on its stdout -/
  | parseFailed
  /-- ffprobe exited 0 and its stdout parsed to these streams -/
  | parsed (streams : List JsonStream)
  deriving DecidableEq, Repr

structure MediaSummary where
  width : Int
  height : Int
  bitRate : Option Int
  deriving DecidableEq, Repr

/-- getMediaInfo from ffmpegUtils.js lines 37-83.  Every failure of the
probe or of parsing is caught and mapped to none; only the NaN check on
width and height gates the summary, bit_rate may be NaN. -/
def getMediaInfo (probe : ProbeOutcome) : Option MediaSummary :=
  match probe with
  | .spawnFailed => none
  | .exitedNonzero => none
  | .parseFailed => none
  | .parsed streams =>
    match streams.head? with
    | none => none
    | some stream =>
      match stream.width, stream.height with
      | some w, some h => some { width := w, height := h, bitRate := stream.bit_rate }
      | some _, none => none
      | none, _ => none

/-- Default CRF if media info can not be obtained (crfUtils.js). -/
def DEFAULT_CRF : Int := 24

/-- The float bitRate / 1_000_000 of crfUtils.js, with NaN mapped to 0. -/
def bitRateMbps (bitRate : Option Int) : ℚ :=
  match bitRate with
  | some b => (b : ℚ) / 1000000
  | none => 0

/-- determineCrf from crfUtils.js lines 1-26. -/
def determineCrf (mediaInfo : Option MediaSummary) : Int :=
  match mediaInfo with
  | none => DEFAULT_CRF
  | some m =>
    if bitRateMbps m.bitRate > 8 ∨ m.height ≥ 1080 then 24
    else if m.height ≥ 720 then 22
    else 20

/-- processFile from parallelProcessor.js lines 42-60: probe, decide the
CRF, convert; the surrounding try/catch maps any unexpected exception inside
the task logic itself to the status error_task_internal (the oracle taskErr;
the model places such an exception before any filesystem effect), so the
task always ends with a definite status. -/
def processFile (env : ConvEnv) (taskErr : Bool) (probe : ProbeOutcome)
    (fs : FS) (filePath : Path) (dryRun : Bool) (rootDir : Path) : Status × FS :=
  if taskErr then (.error_task_internal, fs)
  else
    let mediaInfo := getMediaInfo probe
    let crf := determineCrf mediaInfo
    let r := convertToWebm env fs filePath dryRun crf rootDir
    (r.1, r.2.1)

/-!
Scheduler model.

runParallelProcessing (parallelProcessor.js lines 62-119) keeps a pending
queue and an activeTasks array on the single-threaded event loop.  All queue
and activeTasks manipulation is synchronous; the only suspension is the per
file pipeline itself.  The model below therefore makes admission (runNext)
a function of the state and treats the completion of one in-flight pipeline
as one atomic event (finishAt); a run is a fold of completion events chosen
by an arbitrary schedule, one Nat choice selecting which in-flight task
finishes next.  The pipeline parameter abstracts processFile.
-/

structure SchedState (τ σ : Type) where
  queue : List τ
  active : List τ
  /-- ghost history: tasks in order of admission -/
  admitted : List τ
  /-- terminal statuses in order of completion -/
  done : List Status
  fs : σ
  /-- the processingComplete flag -/
  flag : Bool

/-- The while loop of runNext: admit tasks from the front of the queue while
the in-flight count is below the limit. -/
def admitFrom (L : Nat) (queue active admitted : List τ) :
    List τ × List τ × List τ :=
  match queue with
  | [] => ([], active, admitted)
  | t :: rest =>
    if active.length < L then admitFrom L rest (active ++ [t]) (admitted ++ [t])
    else (t :: rest, active, admitted)

/-- runNext from parallelProcessor.js lines 68-103: no-op once the flag is
set; otherwise admit up to the limit and set the flag when the queue and the
in-flight set are both empty. -/
def runNext (L : Nat) (s : SchedState τ σ) : SchedState τ σ :=
  if s.flag then s
  else
    let r := admitFrom L s.queue s.active s.admitted
    { s with queue := r.1, active := r.2.1, admitted := r.2.2,
             flag := r.1.isEmpty && r.2.1.isEmpty }

/-- The body of the finally handler at lines 83-95 once the finished task t
has been removed from activeTasks (a2 is the remaining in-flight list):
record the outcome and the filesystem left by the pipeline, then either set
the completion flag (queue and in-flight both empty) or admit more work. -/
def completeTask (L : Nat) (pipeline : τ → σ → Status × σ)
    (s : SchedState τ σ) (t : τ) (a2 : List τ) : SchedState τ σ :=
  if s.queue.isEmpty && a2.isEmpty then
    { s with active := a2, done := s.done ++ [(pipeline t s.fs).1],
             fs := (pipeline t s.fs).2, flag := true }
  else
    runNext L { s with active := a2, done := s.done ++ [(pipeline t s.fs).1],
                       fs := (pipeline t s.fs).2 }

/-- Completion of one in-flight pipeline: the schedule choice i selects
which of the in-flight tasks finishes now. -/
def finishAt (L : Nat) (pipeline : τ → σ → Status × σ)
    (s : SchedState τ σ) (i : Nat) : SchedState τ σ :=
  match s.active with
  | [] => s
  | a :: rest =>
    completeTask L pipeline s ((a :: rest).getD (i % (a :: rest).length) a)
      ((a :: rest).eraseIdx (i % (a :: rest).length))

def initSched (tasks : List τ) (fs0 : σ) : SchedState τ σ :=
  ⟨tasks, [], [], [], fs0, false⟩

/-- One whole run of runParallelProcessing: the initial synchronous runNext
call, then the chosen sequence of pipeline completion events. -/
def schedExec (L : Nat) (pipeline : τ → σ → Status × σ) (tasks : List τ)
    (fs0 : σ) (choices : List Nat) : SchedState τ σ :=
  choices.foldl (finishAt L pipeline) (runNext L (initSched tasks fs0))

/-- The scheduler pipeline actually installed by runParallelProcessing,
built from processFile with per-task oracles. -/
def pipelineOf (envOf : Path → ConvEnv) (taskErrOf : Path → Bool)
    (probeOf : Path → ProbeOutcome) (dryRun : Bool) (rootDir : Path) :
    Path → FS → Status × FS :=
  fun p fs => processFile (envOf p) (taskErrOf p) (probeOf p) fs p dryRun rootDir

/-!
Resolution of the returned promise (parallelProcessor.js lines 108-118):
checkCompletion reads the processingComplete flag and, when it is still
false, re-arms itself with setTimeout(checkCompletion, 100).  Polls hence
happen at multiples of the fixed delay, and the promise resolves at the
first poll at or after the instant the flag became true.
-/

/-- The literal delay of setTimeout(checkCompletion, 100). -/
def pollDelayMs : Nat := 100

/-- The instant the promise resolves when the processingComplete flag
became true at instant completeAt: the least multiple of the poll delay
that is at or after completeAt. -/
def resolutionTick (completeAt : Nat) : Nat :=
  pollDelayMs * ((completeAt + pollDelayMs - 1) / pollDelayMs)

/-!
Two-phase refinement of one conversion pipeline, used to analyse claim C1.
Within processFile the call convertToWebm runs synchronously from the
fs.existsSync check on the output path up to spawning ffmpeg, and then
suspends at await runCommandAsync until the encoder exits.  A pipeline in
flight is therefore either before its exists-check (phase one, concluded
when its ffprobe await resolves) or awaiting its encoder (phase two).  The
model below instantiates the encoder oracle with plain success and no probe
or internal failures, and derives the phase bodies from convertToWebm:
phase one returns skipped_exists if the output path already exists,
otherwise commits to encoding; phase two inserts the output file and
deletes the source, returning converted.  Admission mirrors runNext with
the in-flight count bounded by the limit.
-/

structure TPState where
  queue : List Path
  /-- in flight, before the exists-check on the output path -/
  checking : List Path
  /-- in flight, past the exists-check, awaiting the encoder -/
  encoding : List Path
  done : List Status
  fs : FS
  deriving DecidableEq, Repr

def tpAdmitFrom (L : Nat) (queue checking : List Path) (encCount : Nat) :
    List Path × List Path :=
  match queue with
  | [] => ([], checking)
  | t :: rest =>
    if checking.length + encCount < L then tpAdmitFrom L rest (checking ++ [t]) encCount
    else (t :: rest, checking)

def tpAdmit (L : Nat) (s : TPState) : TPState :=
  let r := tpAdmitFrom L s.queue s.checking s.encoding.length
  { s with queue := r.1, checking := r.2 }

inductive TPChoice where
  /-- the ffprobe await of the selected phase-one pipeline resolves and the
  pipeline runs up to its next suspension point -/
  | check (i : Nat)
  /-- the encoder of the selected phase-two pipeline exits (code 0) -/
  | finish (i : Nat)
  deriving DecidableEq, Repr

def tpStep (L : Nat) (s : TPState) (c : TPChoice) : TPState :=
  match c with
  | .check i =>
    match s.checking with
    | [] => s
    | a :: rest0 =>
      let cs := a :: rest0
      let j := i % cs.length
      let t := cs.getD j a
      let rest := cs.eraseIdx j
      if outputPath t ∈ s.fs then
        -- the skipped_exists return: the pipeline terminates at once
        tpAdmit L { s with checking := rest, done := s.done ++ [.skipped_exists] }
      else
        -- ffmpeg is spawned; the pipeline suspends awaiting it
        { s with checking := rest, encoding := s.encoding ++ [t] }
  | .finish i =>
    match s.encoding with
    | [] => s
    | a :: rest0 =>
      let es := a :: rest0
      let j := i % es.length
      let t := es.getD j a
      let rest := es.eraseIdx j
      let fs2 := fsErase (fsInsert s.fs (outputPath t)) t
      tpAdmit L { s with encoding := rest, done := s.done ++ [.converted], fs := fs2 }

def tpExec (L : Nat) (tasks : List Path) (fs0 : FS)
    (choices : List TPChoice) : TPState :=
  choices.foldl (tpStep L) (tpAdmit L ⟨tasks, [], [], [], fs0⟩)

/-! Helper lemmas about the filesystem and list operations. -/

theorem mem_fsInsert (fs : FS) (x p : Path) :
    x ∈ fsInsert fs p ↔ x = p ∨ x ∈ fs := by
  unfold fsInsert
  split
  · constructor
    · intro hx; exact Or.inr hx
    · rintro (rfl | hx)
      · assumption
      · assumption
  · simp [List.mem_cons]

theorem mem_fsErase (fs : FS) (x p : Path) :
    x ∈ fsErase fs p ↔ x ∈ fs ∧ x ≠ p := by
  unfold fsErase
  simp [List.mem_filter]

/-- Selecting any index of a nonempty list and erasing it is a permutation
with the selected element put in front. -/
theorem perm_getD_cons_eraseIdx (l : List τ) (d : τ) (j : Nat) (h : j < l.length) :
    l.Perm (l.getD j d :: l.eraseIdx j) := by
  induction l generalizing j with
  | nil => simp at h
  | cons a as ih =>
    cases j with
    | zero => simp
    | succ j =>
      have hj : j < as.length := by simpa using h
      simp only [List.getD_cons_succ, List.eraseIdx_cons_succ]
      exact (List.Perm.cons a (ih j hj)).trans (List.Perm.swap _ _ _)

/-! Invariant lemmas for the scheduler model. -/

theorem admitFrom_admitted (L : Nat) (q a adm : List τ) :
    (admitFrom L q a adm).2.2 ++ (admitFrom L q a adm).1 = adm ++ q := by
  induction q generalizing a adm with
  | nil => simp [admitFrom]
  | cons t rest ih =>
    simp only [admitFrom]
    split
    · rw [ih]; simp
    · rfl

theorem admitFrom_length_le (L : Nat) (q a adm : List τ) (h : a.length ≤ L) :
    (admitFrom L q a adm).2.1.length ≤ L := by
  induction q generalizing a adm with
  | nil => simpa [admitFrom] using h
  | cons t rest ih =>
    simp only [admitFrom]
    split
    · next hlt => exact ih _ _ (by simp; omega)
    · simpa using h

theorem admitFrom_perm (L : Nat) (q a adm : List τ) :
    ((admitFrom L q a adm).1 ++ (admitFrom L q a adm).2.1).Perm (q ++ a) := by
  induction q generalizing a adm with
  | nil => simp [admitFrom]
  | cons t rest ih =>
    simp only [admitFrom]
    split
    · have h1 := ih (a ++ [t]) (adm ++ [t])
      refine h1.trans ?_
      have h2 : rest ++ (a ++ [t]) = (rest ++ a) ++ [t] := by simp
      rw [h2]
      have h3 : ((rest ++ a) ++ [t]).Perm ([t] ++ (rest ++ a)) := List.perm_append_comm
      simpa using h3
    · exact List.Perm.refl _

/-- Structural invariant of the scheduler: the in-flight set is bounded by
the limit, the admission history followed by the pending queue is exactly
the task list in order, and the completion flag is only up once everything
is drained. -/
def SchedInv (L : Nat) (tasks : List τ) (s : SchedState τ σ) : Prop :=
  s.active.length ≤ L ∧
  s.admitted ++ s.queue = tasks ∧
  (s.flag = true → s.queue = [] ∧ s.active = [])

theorem schedInv_runNext {L : Nat} {tasks : List τ} {s : SchedState τ σ}
    (h : SchedInv L tasks s) : SchedInv L tasks (runNext L s) := by
  unfold runNext
  split
  · exact h
  · refine ⟨admitFrom_length_le L s.queue s.active s.admitted h.1, ?_, ?_⟩
    · rw [admitFrom_admitted]; exact h.2.1
    · intro hflag
      simp only at hflag
      have h1 := List.isEmpty_iff.mp (by
        have := (Bool.and_eq_true _ _).mp hflag
        exact this.1)
      have h2 := List.isEmpty_iff.mp (by
        have := (Bool.and_eq_true _ _).mp hflag
        exact this.2)
      exact ⟨h1, h2⟩

theorem schedInv_completeTask {L : Nat} {tasks : List τ}
    {pipeline : τ → σ → Status × σ} {s : SchedState τ σ} {t : τ} {a2 : List τ}
    (hlen2 : a2.length ≤ L) (hq : s.admitted ++ s.queue = tasks)
    (hflag : s.flag = true → False) :
    SchedInv L tasks (completeTask L pipeline s t a2) := by
  unfold completeTask
  split
  · next hcond =>
    have hc := (Bool.and_eq_true _ _).mp hcond
    exact ⟨hlen2, hq, fun _ =>
      ⟨List.isEmpty_iff.mp hc.1, List.isEmpty_iff.mp hc.2⟩⟩
  · exact schedInv_runNext ⟨hlen2, hq, fun hf => absurd hf hflag⟩

theorem schedInv_finishAt {L : Nat} {tasks : List τ}
    {pipeline : τ → σ → Status × σ} {s : SchedState τ σ} {i : Nat}
    (h : SchedInv L tasks s) : SchedInv L tasks (finishAt L pipeline s i) := by
  unfold finishAt
  split
  · exact h
  · next a rest heq =>
    have hlen : (a :: rest).length ≤ L := by rw [← heq]; exact h.1
    have hj : i % (a :: rest).length < (a :: rest).length :=
      Nat.mod_lt _ (by simp)
    have hlen2 : ((a :: rest).eraseIdx (i % (a :: rest).length)).length ≤ L := by
      have := List.length_eraseIdx_add_one hj
      omega
    have hflag : s.flag = true → False := by
      intro hf
      have := (h.2.2 hf).2
      rw [heq] at this
      simp at this
    exact schedInv_completeTask hlen2 h.2.1 hflag

theorem schedInv_foldl {L : Nat} {tasks : List τ}
    {pipeline : τ → σ → Status × σ} (choices : List Nat) (s : SchedState τ σ)
    (h : SchedInv L tasks s) :
    SchedInv L tasks (choices.foldl (finishAt L pipeline) s) := by
  induction choices generalizing s with
  | nil => exact h
  | cons c cs ih => exact ih _ (schedInv_finishAt h)

theorem schedInv_exec (L : Nat) (pipeline : τ → σ → Status × σ)
    (tasks : List τ) (fs0 : σ) (choices : List Nat) :
    SchedInv L tasks (schedExec L pipeline tasks fs0 choices) := by
  unfold schedExec
  refine schedInv_foldl choices _ (schedInv_runNext ?_)
  exact ⟨by simp [initSched], by simp [initSched], by simp [initSched]⟩

/-- Outcome conservation: the recorded outcomes together with the outcomes
still owed by pending and in-flight tasks are a permutation of the per-task
outcomes of the whole task list.  The hypothesis hout states that the
outcome of the pipeline for a task does not depend on the filesystem it runs
against. -/
def OutInv (tasks : List τ) (out : τ → Status) (s : SchedState τ σ) : Prop :=
  (s.done ++ (s.queue ++ s.active).map out).Perm (tasks.map out)

theorem outInv_runNext {L : Nat} {tasks : List τ} {out : τ → Status}
    {s : SchedState τ σ} (h : OutInv tasks out s) :
    OutInv tasks out (runNext L s) := by
  unfold runNext
  split
  · exact h
  · unfold OutInv at h ⊢
    refine List.Perm.trans (List.Perm.append_left s.done ?_) h
    exact (admitFrom_perm L s.queue s.active s.admitted).map out

theorem outInv_completeTask {L : Nat} {tasks : List τ} {out : τ → Status}
    {pipeline : τ → σ → Status × σ} {s : SchedState τ σ} {t : τ} {a2 : List τ}
    (houtt : (pipeline t s.fs).1 = out t)
    (hmain : (s.done ++ [out t] ++ (s.queue ++ a2).map out).Perm (tasks.map out)) :
    OutInv tasks out (completeTask L pipeline s t a2) := by
  have hm2 : OutInv tasks out
      { s with active := a2, done := s.done ++ [(pipeline t s.fs).1],
               fs := (pipeline t s.fs).2 } := by
    unfold OutInv
    simp only [houtt]
    simpa using hmain
  unfold completeTask
  split
  · unfold OutInv at hm2 ⊢
    simpa using hm2
  · exact outInv_runNext hm2

theorem outInv_finishAt {L : Nat} {tasks : List τ} {out : τ → Status}
    {pipeline : τ → σ → Status × σ} {s : SchedState τ σ} {i : Nat}
    (houtA : ∀ t ∈ s.active, (pipeline t s.fs).1 = out t)
    (h : OutInv tasks out s) : OutInv tasks out (finishAt L pipeline s i) := by
  unfold finishAt
  split
  · exact h
  · next a rest heq =>
    have hj : i % (a :: rest).length < (a :: rest).length :=
      Nat.mod_lt _ (by simp)
    set acts := a :: rest with hacts
    set j := i % acts.length with hjdef
    set t := acts.getD j a with ht
    have hperm : acts.Perm (t :: acts.eraseIdx j) :=
      perm_getD_cons_eraseIdx acts a j hj
    have htmem : t ∈ s.active := by
      rw [heq]
      exact hperm.mem_iff.mpr (List.mem_cons_self _ _)
    refine outInv_completeTask (houtA t htmem) ?_
    unfold OutInv at h
    rw [heq] at h
    refine List.Perm.trans ?_ h
    have e1 : s.done ++ [out t] ++ (s.queue ++ acts.eraseIdx j).map out =
        s.done ++ (out t :: (s.queue.map out ++ (acts.eraseIdx j).map out)) := by
      simp
    rw [e1]
    refine List.Perm.append_left s.done ?_
    have e2 : (out t :: (s.queue.map out ++ (acts.eraseIdx j).map out)).Perm
        (s.queue.map out ++ (out t :: (acts.eraseIdx j).map out)) :=
      List.perm_middle.symm
    refine e2.trans ?_
    have e3 : (s.queue ++ acts).map out = s.queue.map out ++ acts.map out := by
      simp
    rw [e3]
    refine List.Perm.append_left _ ?_
    exact ((hperm.map out).symm : _)

theorem runNext_fs (L : Nat) (s : SchedState τ σ) : (runNext L s).fs = s.fs := by
  unfold runNext
  split <;> rfl

theorem finishAt_fs {pipeline : τ → σ → Status × σ}
    (hp : ∀ t fsx, (pipeline t fsx).2 = fsx) (L : Nat) (s : SchedState τ σ)
    (i : Nat) : (finishAt L pipeline s i).fs = s.fs := by
  unfold finishAt completeTask
  split
  · rfl
  · split
    · simp [hp]
    · rw [runNext_fs]
      simp [hp]

theorem schedExec_fs (L : Nat) (pipeline : τ → σ → Status × σ)
    (tasks : List τ) (fs0 : σ) (choices : List Nat)
    (hp : ∀ t fsx, (pipeline t fsx).2 = fsx) :
    (schedExec L pipeline tasks fs0 choices).fs = fs0 := by
  unfold schedExec
  have hgen : ∀ (cs : List Nat) (s : SchedState τ σ),
      (cs.foldl (finishAt L pipeline) s).fs = s.fs := by
    intro cs
    induction cs with
    | nil => intro s; rfl
    | cons c cs ih =>
      intro s
      rw [List.foldl_cons, ih, finishAt_fs hp]
  rw [hgen, runNext_fs]
  rfl

/-- Invariant used for the second-run analysis: the filesystem never moves
from its initial value, every pending or in-flight task is one of the
original tasks, and every recorded outcome is skipped_exists.  It is
preserved whenever the pipeline of every original task, run on the initial
filesystem, returns skipped_exists and leaves the filesystem alone. -/
def SkipInv (tasks : List τ) (fs0 : σ) (s : SchedState τ σ) : Prop :=
  s.fs = fs0 ∧ (∀ t ∈ s.queue, t ∈ tasks) ∧ (∀ t ∈ s.active, t ∈ tasks) ∧
  (∀ st ∈ s.done, st = Status.skipped_exists)

theorem skipInv_runNext {L : Nat} {tasks : List τ} {fs0 : σ}
    {s : SchedState τ σ} (h : SkipInv tasks fs0 s) :
    SkipInv tasks fs0 (runNext L s) := by
  unfold runNext
  split
  · exact h
  · refine ⟨h.1, ?_, ?_, h.2.2.2⟩
    · intro t ht
      have hperm := admitFrom_perm L s.queue s.active s.admitted
      have : t ∈ s.queue ++ s.active :=
        hperm.mem_iff.mp (List.mem_append.mpr (Or.inl ht))
      rcases List.mem_append.mp this with h1 | h2
      · exact h.2.1 t h1
      · exact h.2.2.1 t h2
    · intro t ht
      have hperm := admitFrom_perm L s.queue s.active s.admitted
      have : t ∈ s.queue ++ s.active :=
        hperm.mem_iff.mp (List.mem_append.mpr (Or.inr ht))
      rcases List.mem_append.mp this with h1 | h2
      · exact h.2.1 t h1
      · exact h.2.2.1 t h2

theorem skipInv_completeTask {L : Nat} {tasks : List τ} {fs0 : σ}
    {pipeline : τ → σ → Status × σ} {s : SchedState τ σ} {t : τ} {a2 : List τ}
    (h : SkipInv tasks fs0 s) (hskipt : pipeline t fs0 = (.skipped_exists, fs0))
    (ha2 : ∀ x ∈ a2, x ∈ tasks) :
    SkipInv tasks fs0 (completeTask L pipeline s t a2) := by
  have hfs : pipeline t s.fs = (.skipped_exists, fs0) := by rw [h.1]; exact hskipt
  have hnew : SkipInv tasks fs0
      { s with active := a2, done := s.done ++ [(pipeline t s.fs).1],
               fs := (pipeline t s.fs).2 } := by
    refine ⟨by simp [hfs], h.2.1, ha2, ?_⟩
    intro st hst
    simp only [List.mem_append, List.mem_singleton] at hst
    rcases hst with h1 | h2
    · exact h.2.2.2 st h1
    · rw [h2, hfs]
  unfold completeTask
  split
  · exact ⟨hnew.1, hnew.2.1, hnew.2.2.1, hnew.2.2.2⟩
  · exact skipInv_runNext hnew

theorem skipInv_finishAt {L : Nat} {tasks : List τ} {fs0 : σ}
    {pipeline : τ → σ → Status × σ} {s : SchedState τ σ} {i : Nat}
    (hskip : ∀ t ∈ tasks, pipeline t fs0 = (.skipped_exists, fs0))
    (h : SkipInv tasks fs0 s) : SkipInv tasks fs0 (finishAt L pipeline s i) := by
  unfold finishAt
  split
  · exact h
  · next a rest heq =>
    have hj : i % (a :: rest).length < (a :: rest).length :=
      Nat.mod_lt _ (by simp)
    have hperm : (a :: rest).Perm
        ((a :: rest).getD (i % (a :: rest).length) a ::
          (a :: rest).eraseIdx (i % (a :: rest).length)) :=
      perm_getD_cons_eraseIdx _ a _ hj
    have hactive : ∀ x ∈ (a :: rest), x ∈ tasks := by
      intro x hx
      apply h.2.2.1
      rw [heq]; exact hx
    have ht : (a :: rest).getD (i % (a :: rest).length) a ∈ tasks := by
      apply hactive
      exact hperm.mem_iff.mpr (List.mem_cons_self _ _)
    have ha2 : ∀ x ∈ (a :: rest).eraseIdx (i % (a :: rest).length), x ∈ tasks := by
      intro x hx
      exact hactive x (hperm.mem_iff.mpr (List.mem_cons_of_mem _ hx))
    exact skipInv_completeTask h (hskip _ ht) ha2

theorem skipInv_exec (L : Nat) (pipeline : τ → σ → Status × σ)
    (tasks : List τ) (fs0 : σ) (choices : List Nat)
    (hskip : ∀ t ∈ tasks, pipeline t fs0 = (.skipped_exists, fs0)) :
    SkipInv tasks fs0 (schedExec L pipeline tasks fs0 choices) := by
  unfold schedExec
  have hinit : SkipInv tasks fs0 (initSched tasks fs0 : SchedState τ σ) := by
    refine ⟨rfl, ?_, ?_, ?_⟩ <;> simp [initSched]
  have hstep := skipInv_runNext (L := L) hinit
  have hgen : ∀ (cs : List Nat) (s : SchedState τ σ), SkipInv tasks fs0 s →
      SkipInv tasks fs0 (cs.foldl (finishAt L pipeline) s) := by
    intro cs
    induction cs with
    | nil => intro s hs; exact hs
    | cons c cs ih =>
      intro s hs
      exact ih _ (skipInv_finishAt hskip hs)
  exact hgen choices _ hstep

/-! Claim theorems. -/

/-- C7: throughout any run of the scheduler (any limit, any pipeline, any
completion order, observed after any number of completion events) the
in-flight set never exceeds concurrencyLimit, and tasks are admitted from
the FIFO pending queue in discovery order with no reordering: the admission
history followed by the remaining queue is always exactly the original task
list. -/
theorem c7_inflight_bounded_fifo {τ σ : Type} (L : Nat)
    (pipeline : τ → σ → Status × σ) (tasks : List τ) (fs0 : σ)
    (choices : List Nat) :
    (schedExec L pipeline tasks fs0 choices).active.length ≤ L ∧
    (schedExec L pipeline tasks fs0 choices).admitted ++
      (schedExec L pipeline tasks fs0 choices).queue = tasks :=
  ⟨(schedInv_exec L pipeline tasks fs0 choices).1,
   (schedInv_exec L pipeline tasks fs0 choices).2.1⟩

/-- C8: with the dry-run flag set, convertToWebm returns skipped_dry_run at
once, leaving the filesystem unchanged and never invoking the encoder; and a
whole batch run under any concurrency limit, any inputs and any completion
order leaves the filesystem exactly as it started. -/
theorem c8_dry_run_untouched :
    (∀ (env : ConvEnv) (fs : FS) (p : Path) (crf : Int) (rootDir : Path),
       convertToWebm env fs p true crf rootDir = (.skipped_dry_run, fs, false)) ∧
    (∀ (envOf : Path → ConvEnv) (taskErrOf : Path → Bool)
       (probeOf : Path → ProbeOutcome) (rootDir : Path) (L : Nat)
       (tasks : List Path) (fs0 : FS) (choices : List Nat),
       (schedExec L (pipelineOf envOf taskErrOf probeOf true rootDir)
         tasks fs0 choices).fs = fs0) := by
  constructor
  · intro env fs p crf rootDir
    rfl
  · intro envOf taskErrOf probeOf rootDir L tasks fs0 choices
    apply schedExec_fs
    intro t fsx
    unfold pipelineOf processFile
    split
    · rfl
    · rfl

/-- C10: determineCrf only ever returns 20, 22 or 24, and an unknown (NaN)
bit rate is treated exactly like 0 bits per second, so it selects the bucket
the height alone selects. -/
theorem c10_crf_closed_set :
    (∀ mi : Option MediaSummary,
       determineCrf mi = 20 ∨ determineCrf mi = 22 ∨ determineCrf mi = 24) ∧
    (∀ w h : Int,
       determineCrf (some ⟨w, h, none⟩) = determineCrf (some ⟨w, h, some 0⟩)) := by
  constructor
  · intro mi
    cases mi with
    | none => right; right; rfl
    | some m =>
      simp only [determineCrf]
      split
      · right; right; rfl
      · split
        · right; left; rfl
        · left; rfl
  · intro w h
    have hz : bitRateMbps (some 0) = bitRateMbps none := by
      unfold bitRateMbps
      norm_num
    simp [determineCrf, hz]

/-- C4: for a source file under the conversion root, quarantine moves the
file (the source path is gone afterwards, everything else untouched) to a
destination inside a sibling directory of the root whose name is the
directory name of the root decorated with the fixed marker, and the
destination keeps the whole path of the file relative to the root, so the tree is not flattened. -/
theorem c4_quarantine_destination (fs : FS) (rootDir p : Path)
    (hpre : rootDir.isPrefixOf p = true) (hmem : p ∈ fs)
    (hne : p ≠ quarantinePath rootDir p) :
    quarantinePath rootDir p ∈ moveFailedFile true fs p rootDir ∧
    p ∉ moveFailedFile true fs p rootDir ∧
    (∀ x : Path, x ≠ p → x ≠ quarantinePath rootDir p →
      (x ∈ moveFailedFile true fs p rootDir ↔ x ∈ fs)) ∧
    quarantinePath rootDir p =
      rootDir.dropLast ++ ["@failed_vc_" ++ rootDir.getLastD ""] ++
        p.drop rootDir.length := by
  have hmove : moveFailedFile true fs p rootDir =
      fsInsert (fsErase fs p) (quarantinePath rootDir p) := by
    unfold moveFailedFile
    rw [if_pos rfl, if_pos hmem]
  refine ⟨?_, ?_, ?_, ?_⟩
  · rw [hmove, mem_fsInsert]
    exact Or.inl rfl
  · rw [hmove, mem_fsInsert, mem_fsErase]
    rintro (h1 | h2)
    · exact hne h1
    · exact h2.2 rfl
  · intro x hxp hxq
    rw [hmove, mem_fsInsert, mem_fsErase]
    constructor
    · rintro (h1 | h2)
      · exact absurd h1 hxq
      · exact h2.1
    · intro hx
      exact Or.inr ⟨hx, hxp⟩
  · unfold quarantinePath
    rw [if_pos hpre]

/-- Witness for C4 at a concrete tree: root d/r, source d/r/sub/x.mp4. -/
theorem c4_quarantine_destination_witness :
    quarantinePath ["d", "r"] ["d", "r", "sub", "x.mp4"] ∈
      moveFailedFile true [["d", "r", "sub", "x.mp4"]]
        ["d", "r", "sub", "x.mp4"] ["d", "r"] ∧
    ["d", "r", "sub", "x.mp4"] ∉
      moveFailedFile true [["d", "r", "sub", "x.mp4"]]
        ["d", "r", "sub", "x.mp4"] ["d", "r"] ∧
    quarantinePath ["d", "r"] ["d", "r", "sub", "x.mp4"] =
      ["d"] ++ ["@failed_vc_" ++ "r"] ++ ["sub", "x.mp4"] := by
  have H := c4_quarantine_destination [["d", "r", "sub", "x.mp4"]]
    ["d", "r"] ["d", "r", "sub", "x.mp4"] (by decide) (by decide) (by decide)
  exact ⟨H.1, H.2.1, H.2.2.2⟩

/-- C2 counterexample: resolution of the scheduler promise is not atomic
with the completion event; it is detected by fixed-delay polling with the
literal 100 ms delay of setTimeout, so completion at instant 1 resolves only
at instant 100. -/
theorem c2_polling_counterexample :
    pollDelayMs = 100 ∧ resolutionTick 1 = 100 ∧ resolutionTick 1 ≠ 1 := by
  decide

/-- C2 (amended): the completion flag is true only when the pending queue
and the in-flight set are both empty; any encoder failure inside a pipeline
is converted to the terminal outcome error_converting; but resolution is
detected by polling the flag at the fixed 100 ms delay, at the first poll
tick at or after the completion instant, not atomically with it. -/
theorem c2_resolution_only_when_drained :
    (∀ (τ σ : Type) (L : Nat) (pipeline : τ → σ → Status × σ)
       (tasks : List τ) (fs0 : σ) (choices : List Nat),
       (schedExec L pipeline tasks fs0 choices).flag = true →
       (schedExec L pipeline tasks fs0 choices).queue = [] ∧
       (schedExec L pipeline tasks fs0 choices).active = []) ∧
    (∀ (env : ConvEnv) (probe : ProbeOutcome) (fs : FS) (p rootDir : Path),
       env.encodeResult ≠ .success → outputPath p ∉ fs →
       (processFile env false probe fs p false rootDir).1 = .error_converting) ∧
    (∀ c : Nat, c ≤ resolutionTick c ∧ pollDelayMs ∣ resolutionTick c ∧
       resolutionTick c < c + pollDelayMs) := by
  refine ⟨?_, ?_, ?_⟩
  · intro τ σ L pipeline tasks fs0 choices hflag
    exact (schedInv_exec L pipeline tasks fs0 choices).2.2 hflag
  · intro env probe fs p rootDir hres hout
    unfold processFile convertToWebm
    cases henc : env.encodeResult with
    | success => exact absurd henc hres
    | exitNonzero => simp [hout, henc]
    | spawnError => simp [hout, henc]
  · intro c
    refine ⟨?_, ⟨(c + pollDelayMs - 1) / pollDelayMs, rfl⟩, ?_⟩
    · unfold resolutionTick pollDelayMs
      omega
    · unfold resolutionTick pollDelayMs
      omega

/-- Witness for C2 at a concrete run: one task, limit 1, one completion
event; the flag is then true and the theorem yields drained queues, plus the
polling facts at completion instant 1. -/
theorem c2_resolution_only_when_drained_witness :
    ((schedExec 1 (pipelineOf (fun _ => ConvEnv.mk .success false true true true)
        (fun _ => false) (fun _ => .parseFailed) true ["r"])
        [["r", "a.mp4"]] [["r", "a.mp4"]] [0]).queue = [] ∧
     (schedExec 1 (pipelineOf (fun _ => ConvEnv.mk .success false true true true)
        (fun _ => false) (fun _ => .parseFailed) true ["r"])
        [["r", "a.mp4"]] [["r", "a.mp4"]] [0]).active = []) ∧
    (1 ≤ resolutionTick 1 ∧ pollDelayMs ∣ resolutionTick 1 ∧
      resolutionTick 1 < 1 + pollDelayMs) := by
  constructor
  · exact c2_resolution_only_when_drained.1 Path FS 1 _ _ _ _ (by decide)
  · exact c2_resolution_only_when_drained.2.2 1

/-- C9: when the output path already exists, convertToWebm returns
skipped_exists without touching the filesystem and without invoking the
encoder; consequently a second batch run over tasks whose outputs all exist
(as after a completed first run) returns skipped_exists for every processed
file and leaves the filesystem unchanged, for every limit and every
completion order. -/
theorem c9_second_run_all_skipped :
    (∀ (env : ConvEnv) (fs : FS) (p : Path) (crf : Int) (rootDir : Path),
       outputPath p ∈ fs →
       convertToWebm env fs p false crf rootDir = (.skipped_exists, fs, false)) ∧
    (∀ (envOf : Path → ConvEnv) (probeOf : Path → ProbeOutcome)
       (rootDir : Path) (L : Nat) (tasks : List Path) (fs0 : FS)
       (choices : List Nat),
       (∀ t ∈ tasks, outputPath t ∈ fs0) →
       (schedExec L (pipelineOf envOf (fun _ => false) probeOf false rootDir)
           tasks fs0 choices).fs = fs0 ∧
       (∀ st ∈ (schedExec L (pipelineOf envOf (fun _ => false) probeOf false rootDir)
           tasks fs0 choices).done, st = Status.skipped_exists)) := by
  have hconv : ∀ (env : ConvEnv) (fs : FS) (p : Path) (crf : Int) (rootDir : Path),
      outputPath p ∈ fs →
      convertToWebm env fs p false crf rootDir = (.skipped_exists, fs, false) := by
    intro env fs p crf rootDir h
    simp [convertToWebm, h]
  refine ⟨hconv, ?_⟩
  intro envOf probeOf rootDir L tasks fs0 choices hexists
  have hskip : ∀ t ∈ tasks,
      pipelineOf envOf (fun _ => false) probeOf false rootDir t fs0 =
        (.skipped_exists, fs0) := by
    intro t ht
    unfold pipelineOf processFile
    rw [if_neg (by simp)]
    simp only [hconv (envOf t) fs0 t (determineCrf (getMediaInfo (probeOf t)))
      rootDir (hexists t ht)]
  have H := skipInv_exec L (pipelineOf envOf (fun _ => false) probeOf false rootDir)
    tasks fs0 choices hskip
  exact ⟨H.1, H.2.2.2⟩

/-- Witness for C9 at a concrete input: the output r/a.webm already exists,
so the single-file conversion skips and a one-task batch leaves the
filesystem unchanged. -/
theorem c9_second_run_all_skipped_witness :
    convertToWebm ⟨.success, false, true, true, true⟩
        [["r", "a.webm"]] ["r", "a.mp4"] false 24 ["r"] =
      (.skipped_exists, [["r", "a.webm"]], false) ∧
    (schedExec 1 (pipelineOf (fun _ => ConvEnv.mk .success false true true true)
        (fun _ => false) (fun _ => ProbeOutcome.parseFailed) false ["r"])
        [["r", "a.mp4"]] [["r", "a.webm"]] [0]).fs = [["r", "a.webm"]] := by
  constructor
  · exact c9_second_run_all_skipped.1 _ _ _ _ _ (by decide)
  · exact (c9_second_run_all_skipped.2 _ _ _ 1 _ _ [0] (by decide)).1

/-- C1 counterexample: two tasks r/a.mp4 and r/a.avi share the output path
r/a.webm.  With limit 1 the run is sequential and ends with outcomes
converted and skipped_exists; with limit 2 both pipelines pass their
exists-check before either encoder finishes (a schedule the event loop
allows, since each pipeline suspends at its encoder await), and the run ends
with two converted outcomes.  The final outcome multisets differ, so the
multiset is not independent of the concurrency limit. -/
theorem c1_collision_counterexample :
    ((tpExec 1 [["r", "a.mp4"], ["r", "a.avi"]]
        [["r", "a.mp4"], ["r", "a.avi"]]
        [.check 0, .finish 0, .check 0]).queue = [] ∧
     (tpExec 1 [["r", "a.mp4"], ["r", "a.avi"]]
        [["r", "a.mp4"], ["r", "a.avi"]]
        [.check 0, .finish 0, .check 0]).checking = [] ∧
     (tpExec 1 [["r", "a.mp4"], ["r", "a.avi"]]
        [["r", "a.mp4"], ["r", "a.avi"]]
        [.check 0, .finish 0, .check 0]).encoding = [] ∧
     (tpExec 1 [["r", "a.mp4"], ["r", "a.avi"]]
        [["r", "a.mp4"], ["r", "a.avi"]]
        [.check 0, .finish 0, .check 0]).done =
       [.converted, .skipped_exists]) ∧
    ((tpExec 2 [["r", "a.mp4"], ["r", "a.avi"]]
        [["r", "a.mp4"], ["r", "a.avi"]]
        [.check 0, .check 0, .finish 0, .finish 0]).queue = [] ∧
     (tpExec 2 [["r", "a.mp4"], ["r", "a.avi"]]
        [["r", "a.mp4"], ["r", "a.avi"]]
        [.check 0, .check 0, .finish 0, .finish 0]).checking = [] ∧
     (tpExec 2 [["r", "a.mp4"], ["r", "a.avi"]]
        [["r", "a.mp4"], ["r", "a.avi"]]
        [.check 0, .check 0, .finish 0, .finish 0]).encoding = [] ∧
     (tpExec 2 [["r", "a.mp4"], ["r", "a.avi"]]
        [["r", "a.mp4"], ["r", "a.avi"]]
        [.check 0, .check 0, .finish 0, .finish 0]).done =
       [.converted, .converted]) ∧
    ([Status.converted, Status.skipped_exists] : Multiset Status) ≠
      ([Status.converted, Status.converted] : Multiset Status) := by
  decide

/-- Frame property of quarantine: a path that is neither the moved source
nor its quarantine destination is unaffected. -/
theorem mem_moveFailedFile_frame (mv : Bool) (fs : FS) (p rootDir x : Path)
    (hxp : x ≠ p) (hxq : x ≠ quarantinePath rootDir p) :
    x ∈ moveFailedFile mv fs p rootDir ↔ x ∈ fs := by
  unfold moveFailedFile
  split
  · split
    · rw [mem_fsInsert, mem_fsErase]
      constructor
      · rintro (h1 | h2)
        · exact absurd h1 hxq
        · exact h2.1
      · intro hx
        exact Or.inr ⟨hx, hxp⟩
    · exact Iff.rfl
  · exact Iff.rfl

/-- Frame property of one conversion: a path that is not the source, its
output path or its quarantine destination exists afterwards exactly when it
existed before, whatever the encoder and the fallible filesystem calls do. -/
theorem convertToWebm_mem_frame (env : ConvEnv) (fs : FS) (p : Path)
    (crf : Int) (rootDir : Path) (x : Path)
    (hxo : x ≠ outputPath p) (hxp : x ≠ p)
    (hxq : x ≠ quarantinePath rootDir p) :
    (x ∈ (convertToWebm env fs p false crf rootDir).2.1 ↔ x ∈ fs) := by
  by_cases ho : outputPath p ∈ fs
  · simp [convertToWebm, ho]
  · cases henc : env.encodeResult with
    | success =>
      simp only [convertToWebm, henc]
      rw [if_neg (by simp), if_neg ho]
      split
      · rw [mem_fsErase, mem_fsInsert]
        simp [hxo, hxp]
      · rw [mem_fsInsert]
        simp [hxo]
    | exitNonzero =>
      simp only [convertToWebm, henc]
      rw [if_neg (by simp), if_neg ho]
      rw [mem_moveFailedFile_frame _ _ _ _ _ hxp hxq]
      split_ifs <;> simp [mem_fsInsert, mem_fsErase, hxo]
    | spawnError =>
      simp only [convertToWebm, henc]
      rw [if_neg (by simp), if_neg ho]
      rw [mem_moveFailedFile_frame _ _ _ _ _ hxp hxq]
      split_ifs <;> simp [mem_fsInsert, mem_fsErase, hxo]

/-- The frame property lifted through processFile. -/
theorem processFile_mem_frame (env : ConvEnv) (te : Bool)
    (probe : ProbeOutcome) (fs : FS) (p rootDir x : Path)
    (hxo : x ≠ outputPath p) (hxp : x ≠ p)
    (hxq : x ≠ quarantinePath rootDir p) :
    (x ∈ (processFile env te probe fs p false rootDir).2 ↔ x ∈ fs) := by
  unfold processFile
  split
  · exact Iff.rfl
  · show x ∈ (convertToWebm env fs p false
        (determineCrf (getMediaInfo probe)) rootDir).2.1 ↔ x ∈ fs
    exact convertToWebm_mem_frame env fs p _ rootDir x hxo hxp hxq

/-- The outcome of one conversion depends on the filesystem only through
whether its own output path exists. -/
theorem convertToWebm_fst_congr (env : ConvEnv) (fs1 fs2 : FS) (p : Path)
    (crf : Int) (rootDir : Path)
    (h : outputPath p ∈ fs1 ↔ outputPath p ∈ fs2) :
    (convertToWebm env fs1 p false crf rootDir).1 =
      (convertToWebm env fs2 p false crf rootDir).1 := by
  by_cases ho : outputPath p ∈ fs1
  · have ho2 := h.mp ho
    simp [convertToWebm, ho, ho2]
  · have ho2 : outputPath p ∉ fs2 := fun hx => ho (h.mpr hx)
    cases henc : env.encodeResult with
    | success =>
      cases hu : env.unlinkSourceOk <;>
        simp [convertToWebm, ho, ho2, henc, hu]
    | exitNonzero => simp [convertToWebm, ho, ho2, henc]
    | spawnError => simp [convertToWebm, ho, ho2, henc]

/-- The outcome congruence lifted through processFile. -/
theorem processFile_fst_congr (env : ConvEnv) (te : Bool)
    (probe : ProbeOutcome) (fs1 fs2 : FS) (p rootDir : Path)
    (h : outputPath p ∈ fs1 ↔ outputPath p ∈ fs2) :
    (processFile env te probe fs1 p false rootDir).1 =
      (processFile env te probe fs2 p false rootDir).1 := by
  unfold processFile
  split
  · rfl
  · show (convertToWebm env fs1 p false
        (determineCrf (getMediaInfo probe)) rootDir).1 = _
    exact convertToWebm_fst_congr env fs1 fs2 p _ rootDir h

/-- In a duplicate-free task list, a task of the remainder left after
removing one occurrence of u cannot be u again. -/
theorem ne_of_count_nodup {α : Type} [DecidableEq α] {l tasks : List α}
    {u t : α} (hsub : (↑l : Multiset α) + {u} ≤ (↑tasks : Multiset α))
    (hnodup : tasks.Nodup) (ht : t ∈ l) : t ≠ u := by
  intro heq
  subst heq
  have h1 : 1 ≤ Multiset.count t (↑l : Multiset α) :=
    Multiset.one_le_count_iff_mem.mpr (Multiset.mem_coe.mpr ht)
  have h2 : 2 ≤ Multiset.count t ((↑l : Multiset α) + {t}) := by
    rw [Multiset.count_add, Multiset.count_singleton_self]
    omega
  have h3 := Multiset.count_le_of_le t hsub
  have h4 : Multiset.count t (↑tasks : Multiset α) ≤ 1 :=
    Multiset.nodup_iff_count_le_one.mp (Multiset.coe_nodup.mpr hnodup) t
  omega

/-- Admission only moves tasks between the queue and the in-flight list. -/
theorem runNext_remaining_perm (L : Nat) (s : SchedState τ σ) :
    ((runNext L s).queue ++ (runNext L s).active).Perm (s.queue ++ s.active) := by
  unfold runNext
  split
  · exact List.Perm.refl _
  · exact admitFrom_perm L s.queue s.active s.admitted

/-- Rearrangement used at a completion event: recording the outcome of the
selected in-flight task keeps the conservation permutation. -/
theorem done_insert_perm {tasks : List τ} {out : τ → Status}
    {s : SchedState τ σ} {u : τ} {a2 : List τ}
    (hperm : s.active.Perm (u :: a2)) (h : OutInv tasks out s) :
    (s.done ++ [out u] ++ (s.queue ++ a2).map out).Perm (tasks.map out) := by
  unfold OutInv at h
  refine List.Perm.trans ?_ h
  have e1 : s.done ++ [out u] ++ (s.queue ++ a2).map out =
      s.done ++ (out u :: (s.queue.map out ++ a2.map out)) := by
    simp
  rw [e1]
  refine List.Perm.append_left s.done ?_
  refine (List.perm_middle.symm).trans ?_
  have e3 : (s.queue ++ s.active).map out = s.queue.map out ++ s.active.map out := by
    simp
  rw [e3]
  refine List.Perm.append_left _ ?_
  exact (((hperm.map out).symm :
    ((u :: a2).map out).Perm (s.active.map out)) : _)

/-- Admission preserves a sub-multiset bound and any per-task property of
the filesystem, since it neither adds tasks nor touches the filesystem. -/
theorem runNext_rem (pr : τ → σ → Prop) {tasks : List τ} (L : Nat)
    (s : SchedState τ σ)
    (hc2 : (↑(s.queue ++ s.active) : Multiset τ) ≤ (↑tasks : Multiset τ))
    (hc3 : ∀ t ∈ s.queue ++ s.active, pr t s.fs) :
    ((↑((runNext L s).queue ++ (runNext L s).active) : Multiset τ) ≤
        (↑tasks : Multiset τ)) ∧
    ∀ t ∈ (runNext L s).queue ++ (runNext L s).active, pr t (runNext L s).fs := by
  have e := runNext_remaining_perm L s
  constructor
  · rw [Multiset.coe_eq_coe.mpr e]
    exact hc2
  · intro t ht
    rw [runNext_fs]
    exact hc3 t (e.mem_iff.mp ht)

/-- The same preservation through a completion event, given the bound and
the property already hold for the remainder against the new filesystem. -/
theorem completeTask_rem (pr : τ → σ → Prop) {tasks : List τ} (L : Nat)
    (pipeline : τ → σ → Status × σ) (s : SchedState τ σ) (u : τ) (a2 : List τ)
    (hc2 : (↑(s.queue ++ a2) : Multiset τ) ≤ (↑tasks : Multiset τ))
    (hc3 : ∀ t ∈ s.queue ++ a2, pr t (pipeline u s.fs).2) :
    ((↑((completeTask L pipeline s u a2).queue ++
        (completeTask L pipeline s u a2).active) : Multiset τ) ≤
      (↑tasks : Multiset τ)) ∧
    ∀ t ∈ (completeTask L pipeline s u a2).queue ++
        (completeTask L pipeline s u a2).active,
      pr t (completeTask L pipeline s u a2).fs := by
  unfold completeTask
  split
  · exact ⟨hc2, hc3⟩
  · exact runNext_rem pr L _ hc2 hc3

/-- Invariant for interference-free runs: outcome conservation, the pending
and in-flight tasks forming a sub-multiset of the original list, and the
presence of the output path of every remaining task being as it was in the
initial filesystem. -/
def IndInv (tasks : List Path) (fs0 : FS) (out : Path → Status)
    (s : SchedState Path FS) : Prop :=
  OutInv tasks out s ∧
  (↑(s.queue ++ s.active) : Multiset Path) ≤ (↑tasks : Multiset Path) ∧
  ∀ t ∈ s.queue ++ s.active, (outputPath t ∈ s.fs ↔ outputPath t ∈ fs0)

theorem indInv_runNext {L : Nat} {tasks : List Path} {fs0 : FS}
    {out : Path → Status} {s : SchedState Path FS}
    (h : IndInv tasks fs0 out s) : IndInv tasks fs0 out (runNext L s) := by
  obtain ⟨h1, h2, h3⟩ := h
  have hr := runNext_rem (fun t fsx => outputPath t ∈ fsx ↔ outputPath t ∈ fs0)
    L s h2 h3
  exact ⟨outInv_runNext h1, hr.1, hr.2⟩

theorem indInv_finishAt {L : Nat} {pipeline : Path → FS → Status × FS}
    {tasks : List Path} {fs0 : FS} {out : Path → Status}
    (hnodup : tasks.Nodup)
    (hout1 : ∀ t ∈ tasks, ∀ fsx : FS,
      (outputPath t ∈ fsx ↔ outputPath t ∈ fs0) → (pipeline t fsx).1 = out t)
    (hframe : ∀ u ∈ tasks, ∀ t ∈ tasks, t ≠ u → ∀ fsx : FS,
      (outputPath t ∈ (pipeline u fsx).2 ↔ outputPath t ∈ fsx))
    {s : SchedState Path FS} {i : Nat}
    (h : IndInv tasks fs0 out s) : IndInv tasks fs0 out (finishAt L pipeline s i) := by
  obtain ⟨h1, h2, h3⟩ := h
  unfold finishAt
  split
  · exact ⟨h1, h2, h3⟩
  · next a rest heq =>
    have hj : i % (a :: rest).length < (a :: rest).length :=
      Nat.mod_lt _ (by simp)
    set acts := a :: rest with hacts
    set j := i % acts.length with hj0
    set u := acts.getD j a with hudef
    set a2 := acts.eraseIdx j with ha2def
    have hperm : acts.Perm (u :: a2) := perm_getD_cons_eraseIdx acts a j hj
    have hpermS : s.active.Perm (u :: a2) := by rw [heq]; exact hperm
    have hrearr : (s.queue ++ s.active).Perm (u :: (s.queue ++ a2)) := by
      refine List.Perm.trans (List.Perm.append_left s.queue hpermS) ?_
      exact List.perm_middle
    have humem : u ∈ s.queue ++ s.active :=
      hrearr.mem_iff.mpr (List.mem_cons_self _ _)
    have hutask : u ∈ tasks :=
      Multiset.mem_coe.mp (Multiset.mem_of_le h2 (Multiset.mem_coe.mpr humem))
    have houtu : (pipeline u s.fs).1 = out u := hout1 u hutask s.fs (h3 u humem)
    have hsplit : (↑(s.queue ++ a2) : Multiset Path) + {u} ≤
        (↑tasks : Multiset Path) := by
      have e : (↑(s.queue ++ a2) : Multiset Path) + {u} =
          (↑(s.queue ++ s.active) : Multiset Path) := by
        rw [Multiset.coe_eq_coe.mpr hrearr]
        have : ({u} : Multiset Path) + ↑(s.queue ++ a2) =
            (u ::ₘ ↑(s.queue ++ a2) : Multiset Path) := by
          simp [Multiset.singleton_add]
        rw [add_comm, this, Multiset.cons_coe]
      rw [e]
      exact h2
    have hrem2 : (↑(s.queue ++ a2) : Multiset Path) ≤ (↑tasks : Multiset Path) :=
      le_trans (Multiset.le_add_right _ _) hsplit
    have hmemrem : ∀ t ∈ s.queue ++ a2, t ∈ s.queue ++ s.active := by
      intro t ht
      exact hrearr.mem_iff.mpr (List.mem_cons_of_mem _ ht)
    have hrem3 : ∀ t ∈ s.queue ++ a2,
        (outputPath t ∈ (pipeline u s.fs).2 ↔ outputPath t ∈ fs0) := by
      intro t ht
      have httask : t ∈ tasks :=
        Multiset.mem_coe.mp (Multiset.mem_of_le hrem2 (Multiset.mem_coe.mpr ht))
      have htne : t ≠ u := ne_of_count_nodup hsplit hnodup ht
      exact (hframe u hutask t httask htne s.fs).trans (h3 t (hmemrem t ht))
    have hcomp := completeTask_rem
      (fun t fsx => outputPath t ∈ fsx ↔ outputPath t ∈ fs0)
      L pipeline s u a2 hrem2 hrem3
    exact ⟨outInv_completeTask houtu (done_insert_perm hpermS h1),
      hcomp.1, hcomp.2⟩

theorem indInv_exec (L : Nat) (pipeline : Path → FS → Status × FS)
    (tasks : List Path) (fs0 : FS) (out : Path → Status) (choices : List Nat)
    (hnodup : tasks.Nodup)
    (hout1 : ∀ t ∈ tasks, ∀ fsx : FS,
      (outputPath t ∈ fsx ↔ outputPath t ∈ fs0) → (pipeline t fsx).1 = out t)
    (hframe : ∀ u ∈ tasks, ∀ t ∈ tasks, t ≠ u → ∀ fsx : FS,
      (outputPath t ∈ (pipeline u fsx).2 ↔ outputPath t ∈ fsx)) :
    IndInv tasks fs0 out (schedExec L pipeline tasks fs0 choices) := by
  unfold schedExec
  have hinit : IndInv tasks fs0 out (initSched tasks fs0) := by
    refine ⟨?_, ?_, ?_⟩
    · unfold OutInv initSched
      simp
    · simp [initSched]
    · intro t _
      exact Iff.rfl
  have hgen : ∀ (cs : List Nat) (s : SchedState Path FS), IndInv tasks fs0 out s →
      IndInv tasks fs0 out (cs.foldl (finishAt L pipeline) s) := by
    intro cs
    induction cs with
    | nil => intro s hs; exact hs
    | cons c cs ih =>
      intro s hs
      exact ih _ (indInv_finishAt hnodup hout1 hframe hs)
  exact hgen choices _ (indInv_runNext hinit)

/-- C1 (amended): for a real (non-dry-run) batch whose tasks do not
interact through shared paths — the task list is duplicate-free, no two
tasks share an output path, no source path equals an output path and no
quarantine destination equals an output path — every completed run of the
scheduler, for every concurrency limit and every completion order, ends
with the same final multiset of outcomes: the per-file outcomes of the
pipeline evaluated against the starting filesystem.  In particular a limit
of 1 (strictly sequential) and any larger limit agree.  Without the
no-shared-path proviso this fails, see the collision counterexample. -/
theorem c1_outcome_multiset_limit_independent
    (envOf : Path → ConvEnv) (taskErrOf : Path → Bool)
    (probeOf : Path → ProbeOutcome) (rootDir : Path)
    (tasks : List Path) (fs0 : FS)
    (hnodup : tasks.Nodup)
    (houts : ∀ t ∈ tasks, ∀ u ∈ tasks, t ≠ u → outputPath t ≠ outputPath u)
    (hsrc : ∀ t ∈ tasks, ∀ u ∈ tasks, u ≠ outputPath t)
    (hquar : ∀ t ∈ tasks, ∀ u ∈ tasks, quarantinePath rootDir u ≠ outputPath t)
    (L : Nat) (cs : List Nat)
    (hq : (schedExec L (pipelineOf envOf taskErrOf probeOf false rootDir)
        tasks fs0 cs).queue = [])
    (ha : (schedExec L (pipelineOf envOf taskErrOf probeOf false rootDir)
        tasks fs0 cs).active = []) :
    ((schedExec L (pipelineOf envOf taskErrOf probeOf false rootDir)
        tasks fs0 cs).done : Multiset Status) =
      ((tasks.map fun t =>
        (pipelineOf envOf taskErrOf probeOf false rootDir t fs0).1) :
        Multiset Status) := by
  have hout1 : ∀ t ∈ tasks, ∀ fsx : FS,
      (outputPath t ∈ fsx ↔ outputPath t ∈ fs0) →
      (pipelineOf envOf taskErrOf probeOf false rootDir t fsx).1 =
        (pipelineOf envOf taskErrOf probeOf false rootDir t fs0).1 := by
    intro t _ fsx hiff
    exact processFile_fst_congr (envOf t) (taskErrOf t) (probeOf t) fsx fs0 t
      rootDir hiff
  have hframe : ∀ u ∈ tasks, ∀ t ∈ tasks, t ≠ u → ∀ fsx : FS,
      (outputPath t ∈ (pipelineOf envOf taskErrOf probeOf false rootDir u fsx).2 ↔
        outputPath t ∈ fsx) := by
    intro u hu t htk htne fsx
    exact processFile_mem_frame (envOf u) (taskErrOf u) (probeOf u) fsx u rootDir
      (outputPath t) (houts t htk u hu htne) (Ne.symm (hsrc t htk u hu))
      (Ne.symm (hquar t htk u hu))
  have H := (indInv_exec L (pipelineOf envOf taskErrOf probeOf false rootDir)
    tasks fs0 (fun t => (pipelineOf envOf taskErrOf probeOf false rootDir t fs0).1)
    cs hnodup hout1 hframe).1
  unfold OutInv at H
  rw [hq, ha] at H
  simp only [List.append_nil, List.nil_append, List.map_nil] at H
  exact Multiset.coe_eq_coe.mpr H

/-- Witness for C1 (amended) at a concrete real (non-dry-run) batch: two
sources r/a.mp4 and r/b.mp4 with distinct outputs, encoder succeeding, run
to completion under limit 1 (sequential) and limit 2 (concurrent); both
multisets equal the per-file outcomes, here converted twice. -/
theorem c1_outcome_multiset_limit_independent_witness :
    ((schedExec 1 (pipelineOf (fun _ => ConvEnv.mk .success false true true true)
        (fun _ => false) (fun _ => ProbeOutcome.parseFailed) false ["r"])
        [["r", "a.mp4"], ["r", "b.mp4"]]
        [["r", "a.mp4"], ["r", "b.mp4"]] [0, 0]).done : Multiset Status) =
      ((schedExec 2 (pipelineOf (fun _ => ConvEnv.mk .success false true true true)
        (fun _ => false) (fun _ => ProbeOutcome.parseFailed) false ["r"])
        [["r", "a.mp4"], ["r", "b.mp4"]]
        [["r", "a.mp4"], ["r", "b.mp4"]] [0, 0]).done : Multiset Status) ∧
    ((schedExec 2 (pipelineOf (fun _ => ConvEnv.mk .success false true true true)
        (fun _ => false) (fun _ => ProbeOutcome.parseFailed) false ["r"])
        [["r", "a.mp4"], ["r", "b.mp4"]]
        [["r", "a.mp4"], ["r", "b.mp4"]] [0, 0]).done : Multiset Status) =
      (([Status.converted, Status.converted] : List Status) : Multiset Status) := by
  have H1 := c1_outcome_multiset_limit_independent
    (fun _ => ConvEnv.mk .success false true true true) (fun _ => false)
    (fun _ => ProbeOutcome.parseFailed) ["r"]
    [["r", "a.mp4"], ["r", "b.mp4"]] [["r", "a.mp4"], ["r", "b.mp4"]]
    (by decide) (by decide) (by decide) (by decide) 1 [0, 0]
    (by decide) (by decide)
  have H2 := c1_outcome_multiset_limit_independent
    (fun _ => ConvEnv.mk .success false true true true) (fun _ => false)
    (fun _ => ProbeOutcome.parseFailed) ["r"]
    [["r", "a.mp4"], ["r", "b.mp4"]] [["r", "a.mp4"], ["r", "b.mp4"]]
    (by decide) (by decide) (by decide) (by decide) 2 [0, 0]
    (by decide) (by decide)
  refine ⟨H1.trans H2.symm, H2.trans ?_⟩
  decide

/-- C3 counterexample: when the encoder cannot be spawned, convertToWebm
returns error_converting, not a distinct error_spawning outcome — the catch
block at ffmpegUtils.js lines 151-174 logs a different message for type
spawn_error but falls through to the same return value. -/
theorem c3_spawn_failure_counterexample :
    (convertToWebm ⟨.spawnError, false, true, true, true⟩ [["r", "a.mp4"]]
       ["r", "a.mp4"] false 24 ["r"]).1 = .error_converting ∧
    (convertToWebm ⟨.spawnError, false, true, true, true⟩ [["r", "a.mp4"]]
       ["r", "a.mp4"] false 24 ["r"]).1 ≠ .error_spawning := by
  decide

/-- C3 (amended): when the encoder exits nonzero or cannot be spawned, any
partly written output file is deleted when that deletion succeeds (its
failure is non-fatal), the source is quarantined when the move succeeds, and
the returned outcome is error_converting in both cases. -/
theorem c3_failure_cleanup_and_quarantine (env : ConvEnv) (fs : FS)
    (p rootDir : Path) (crf : Int)
    (hres : env.encodeResult = .exitNonzero ∨ env.encodeResult = .spawnError)
    (houtfs : outputPath p ∉ fs)
    (hnp : p ≠ outputPath p) (hnq : p ≠ quarantinePath rootDir p)
    (hqo : quarantinePath rootDir p ≠ outputPath p) :
    (convertToWebm env fs p false crf rootDir).1 = .error_converting ∧
    (env.cleanupOk = true →
       outputPath p ∉ (convertToWebm env fs p false crf rootDir).2.1) ∧
    (env.moveOk = true → p ∈ fs →
       p ∉ (convertToWebm env fs p false crf rootDir).2.1 ∧
       quarantinePath rootDir p ∈ (convertToWebm env fs p false crf rootDir).2.1) := by
  have hconv : convertToWebm env fs p false crf rootDir =
      (.error_converting,
       moveFailedFile env.moveOk
         (if outputPath p ∈ (if env.outputLeftover then fsInsert fs (outputPath p) else fs)
          then (if env.cleanupOk
                then fsErase (if env.outputLeftover then fsInsert fs (outputPath p) else fs)
                       (outputPath p)
                else (if env.outputLeftover then fsInsert fs (outputPath p) else fs))
          else (if env.outputLeftover then fsInsert fs (outputPath p) else fs))
         p rootDir, true) := by
    rcases hres with hcase | hcase <;> simp [convertToWebm, houtfs, hcase]
  set fs1 := if env.outputLeftover then fsInsert fs (outputPath p) else fs with hfs1
  set fs2 := (if outputPath p ∈ fs1
              then (if env.cleanupOk then fsErase fs1 (outputPath p) else fs1)
              else fs1) with hfs2
  have hmemfs1 : ∀ x : Path, x ∈ fs1 ↔ (env.outputLeftover = true ∧ x = outputPath p) ∨ x ∈ fs := by
    intro x
    rw [hfs1]
    by_cases hl : env.outputLeftover = true
    · rw [if_pos hl, mem_fsInsert]
      constructor
      · rintro (h1 | h2)
        · exact Or.inl ⟨hl, h1⟩
        · exact Or.inr h2
      · rintro (⟨_, h1⟩ | h2)
        · exact Or.inl h1
        · exact Or.inr h2
    · rw [if_neg hl]
      constructor
      · exact Or.inr
      · rintro (⟨hT, _⟩ | h2)
        · exact absurd hT hl
        · exact h2
  have hmemfs2out : env.cleanupOk = true → outputPath p ∉ fs2 := by
    intro hcl
    rw [hfs2, hcl]
    by_cases hm : outputPath p ∈ fs1
    · rw [if_pos hm, if_pos rfl, mem_fsErase]
      simp
    · rw [if_neg hm]
      exact hm
  have hmemfs2p : p ∈ fs → p ∈ fs2 := by
    intro hp
    have hp1 : p ∈ fs1 := (hmemfs1 p).mpr (Or.inr hp)
    rw [hfs2]
    split
    · split
      · rw [mem_fsErase]; exact ⟨hp1, hnp⟩
      · exact hp1
    · exact hp1
  refine ⟨by rw [hconv], ?_, ?_⟩
  · intro hcl
    rw [hconv]
    simp only
    unfold moveFailedFile
    split
    · split
      · rw [mem_fsInsert, mem_fsErase]
        rintro (h1 | h2)
        · exact hqo h1.symm
        · exact hmemfs2out hcl h2.1
      · exact hmemfs2out hcl
    · exact hmemfs2out hcl
  · intro hmv hp
    rw [hconv]
    simp only
    unfold moveFailedFile
    rw [if_pos hmv, if_pos (hmemfs2p hp)]
    constructor
    · rw [mem_fsInsert, mem_fsErase]
      rintro (h1 | h2)
      · exact hnq h1
      · exact h2.2 rfl
    · rw [mem_fsInsert]
      exact Or.inl rfl

/-- Witness for C3 (amended) at a concrete input: encoder exits nonzero on
r/a.mp4 leaving a partial output, cleanup and quarantine both succeed. -/
theorem c3_failure_cleanup_and_quarantine_witness :
    (convertToWebm ⟨.exitNonzero, true, true, true, true⟩ [["r", "a.mp4"]]
       ["r", "a.mp4"] false 24 ["r"]).1 = .error_converting ∧
    outputPath ["r", "a.mp4"] ∉
      (convertToWebm ⟨.exitNonzero, true, true, true, true⟩ [["r", "a.mp4"]]
        ["r", "a.mp4"] false 24 ["r"]).2.1 ∧
    ["r", "a.mp4"] ∉
      (convertToWebm ⟨.exitNonzero, true, true, true, true⟩ [["r", "a.mp4"]]
        ["r", "a.mp4"] false 24 ["r"]).2.1 ∧
    quarantinePath ["r"] ["r", "a.mp4"] ∈
      (convertToWebm ⟨.exitNonzero, true, true, true, true⟩ [["r", "a.mp4"]]
        ["r", "a.mp4"] false 24 ["r"]).2.1 := by
  have H := c3_failure_cleanup_and_quarantine ⟨.exitNonzero, true, true, true, true⟩
    [["r", "a.mp4"]] ["r", "a.mp4"] ["r"] 24 (Or.inl rfl) (by decide)
    (by decide) (by decide) (by decide)
  exact ⟨H.1, H.2.1 rfl, (H.2.2 rfl (by decide)).1, (H.2.2 rfl (by decide)).2⟩

/-- C5 counterexample: a probed stream whose width parses to 0 — not a
positive integer — still yields a summary; the source only rejects NaN
parses, it never checks positivity. -/
theorem c5_nonpositive_width_counterexample :
    getMediaInfo (.parsed [⟨some 0, some 480, some 1000⟩]) =
      some ⟨0, 480, some 1000⟩ ∧ ¬ (0 : Int) > 0 := by
  decide

/-- C5 (amended): getMediaInfo is total and returns none exactly when the
probe could not be spawned, exited nonzero, produced unparsable output, has
no stream, or width or height fail to parse as integers (the NaN check; zero
or negative parsed dimensions are accepted); a missing or non-numeric bit
rate alone never suppresses the summary — it is returned with the bit rate
marked unknown. -/
theorem c5_absent_condition :
    (∀ probe : ProbeOutcome, getMediaInfo probe = none ↔
       (probe = .spawnFailed ∨ probe = .exitedNonzero ∨ probe = .parseFailed ∨
        ∃ streams, probe = .parsed streams ∧
          (streams.head? = none ∨
           ∃ s, streams.head? = some s ∧ (s.width = none ∨ s.height = none)))) ∧
    (∀ w h : Int, getMediaInfo (.parsed [⟨some w, some h, none⟩]) =
       some ⟨w, h, none⟩) := by
  constructor
  · intro probe
    cases probe with
    | spawnFailed => simp [getMediaInfo]
    | exitedNonzero => simp [getMediaInfo]
    | parseFailed => simp [getMediaInfo]
    | parsed streams =>
      cases streams with
      | nil => simp [getMediaInfo]
      | cons s rest =>
        obtain ⟨ws, hs, bs⟩ := s
        cases ws <;> cases hs <;> simp [getMediaInfo]
  · intro w h
    rfl

theorem bitRateMbps_gt_iff (b : Int) : 8 < bitRateMbps (some b) ↔ 8000000 < b := by
  unfold bitRateMbps
  rw [lt_div_iff (by norm_num : (0 : ℚ) < 1000000)]
  have h8 : (8 : ℚ) * 1000000 = ((8000000 : Int) : ℚ) := by norm_num
  rw [h8, Int.cast_lt]

theorem bitRateMbps_none : bitRateMbps none = 0 := rfl

/-- C6 counterexample: a bit rate of exactly 8 Mbps sits exactly on the
bit-rate threshold of the table but is placed in the lowest bucket (CRF 20 at height
480), while anything above the threshold lands in the high bucket (CRF 24);
so the bit-rate boundary is exclusive, not an inclusive lower bound that
resolves ties toward the higher bucket. -/
theorem c6_bitrate_tie_counterexample :
    determineCrf (some ⟨640, 480, some 8000000⟩) = 20 ∧
    determineCrf (some ⟨640, 480, some 8000001⟩) = 24 ∧
    (20 : Int) ≠ 24 := by
  refine ⟨?_, ?_, by norm_num⟩
  · have h1 : ¬ 8 < bitRateMbps (some 8000000) := fun hx => by
      have := (bitRateMbps_gt_iff 8000000).mp hx
      omega
    norm_num [determineCrf, h1]
  · norm_num [determineCrf, (bitRateMbps_gt_iff 8000001).mpr (by norm_num)]

/-- C6 (amended): determineCrf is pure and total; an absent summary yields
the fixed default; the mapping is monotone in height (at any fixed bit rate)
and in bit rate (at any fixed height), with higher resolution or bit rate
selecting the smaller-output preset CRF 24 and lower ones the
detail-preserving presets; the height thresholds 1080 and 720 are inclusive
lower bounds, but the 8 Mbps bit-rate threshold is strict — a bit rate at or
below it leaves the choice to the height alone. -/
theorem c6_crf_policy :
    determineCrf none = DEFAULT_CRF ∧
    (∀ (w1 w2 h1 h2 : Int) (b : Option Int), h1 ≤ h2 →
       determineCrf (some ⟨w1, h1, b⟩) ≤ determineCrf (some ⟨w2, h2, b⟩)) ∧
    (∀ (w h b1 b2 : Int), b1 ≤ b2 →
       determineCrf (some ⟨w, h, some b1⟩) ≤ determineCrf (some ⟨w, h, some b2⟩)) ∧
    (∀ (w : Int) (b : Option Int), determineCrf (some ⟨w, 1080, b⟩) = 24) ∧
    (∀ w : Int, determineCrf (some ⟨w, 720, none⟩) = 22) ∧
    (∀ w h b : Int, b ≤ 8000000 →
       determineCrf (some ⟨w, h, some b⟩) = determineCrf (some ⟨w, h, none⟩)) ∧
    (∀ w h b : Int, 8000000 < b → determineCrf (some ⟨w, h, some b⟩) = 24) := by
  refine ⟨rfl, ?_, ?_, ?_, ?_, ?_, ?_⟩
  · intro w1 w2 h1 h2 b hle
    by_cases hbr : 8 < bitRateMbps b
    · simp [determineCrf, hbr]
    · by_cases ha : (1080 : Int) ≤ h1
      · have hb2 : (1080 : Int) ≤ h2 := le_trans ha hle
        simp [determineCrf, hbr, ha, hb2]
      · by_cases hb2 : (1080 : Int) ≤ h2
        · have hL : ¬ (8 < bitRateMbps b ∨ 1080 ≤ h1) := by
            rintro (hx | hx)
            · exact hbr hx
            · exact ha hx
          have hR : 8 < bitRateMbps b ∨ 1080 ≤ h2 := Or.inr hb2
          simp only [determineCrf, ge_iff_le, gt_iff_lt]
          rw [if_neg hL, if_pos hR]
          split <;> norm_num
        · by_cases hc : (720 : Int) ≤ h1
          · have hc2 : (720 : Int) ≤ h2 := le_trans hc hle
            simp [determineCrf, hbr, ha, hb2, hc, hc2]
          · by_cases hc2 : (720 : Int) ≤ h2
            · simp [determineCrf, hbr, ha, hb2, hc, hc2]
            · simp [determineCrf, hbr, ha, hb2, hc, hc2]
  · intro w h b1 b2 hle
    by_cases hbr1 : (8000000 : Int) < b1
    · have hbr2 : (8000000 : Int) < b2 := lt_of_lt_of_le hbr1 hle
      simp [determineCrf, (bitRateMbps_gt_iff b1).mpr hbr1,
        (bitRateMbps_gt_iff b2).mpr hbr2]
    · by_cases hbr2 : (8000000 : Int) < b2
      · simp only [determineCrf, ge_iff_le, gt_iff_lt]
        rw [if_pos (Or.inl ((bitRateMbps_gt_iff b2).mpr hbr2))]
        split
        · exact le_refl _
        · split <;> norm_num
      · have e1 : ¬ 8 < bitRateMbps (some b1) := fun hx =>
          hbr1 ((bitRateMbps_gt_iff b1).mp hx)
        have e2 : ¬ 8 < bitRateMbps (some b2) := fun hx =>
          hbr2 ((bitRateMbps_gt_iff b2).mp hx)
        simp [determineCrf, e1, e2]
  · intro w b
    simp [determineCrf]
  · intro w
    have h0 : ¬ 8 < bitRateMbps none := by
      rw [bitRateMbps_none]; norm_num
    simp [determineCrf, h0]
  · intro w h b hb
    have e1 : ¬ 8 < bitRateMbps (some b) := fun hx => by
      have := (bitRateMbps_gt_iff b).mp hx
      omega
    have e2 : ¬ 8 < bitRateMbps none := by
      rw [bitRateMbps_none]; norm_num
    simp [determineCrf, e1, e2]
  · intro w h b hb
    simp [determineCrf, (bitRateMbps_gt_iff b).mpr hb]

/-- Witness for C6 (amended) at concrete summaries. -/
theorem c6_crf_policy_witness :
    determineCrf none = DEFAULT_CRF ∧
    determineCrf (some ⟨640, 480, some 0⟩) ≤ determineCrf (some ⟨640, 1080, some 0⟩) ∧
    determineCrf (some ⟨640, 480, some 0⟩) ≤ determineCrf (some ⟨640, 480, some 9000000⟩) ∧
    determineCrf (some ⟨640, 1080, none⟩) = 24 ∧
    determineCrf (some ⟨640, 720, none⟩) = 22 ∧
    determineCrf (some ⟨640, 480, some 8000000⟩) = determineCrf (some ⟨640, 480, none⟩) ∧
    determineCrf (some ⟨640, 480, some 8000001⟩) = 24 :=
  ⟨c6_crf_policy.1,
   c6_crf_policy.2.1 640 640 480 1080 (some 0) (by norm_num),
   c6_crf_policy.2.2.1 640 480 0 9000000 (by norm_num),
   c6_crf_policy.2.2.2.1 640 none,
   c6_crf_policy.2.2.2.2.1 640,
   c6_crf_policy.2.2.2.2.2.1 640 480 8000000 (by norm_num),
   c6_crf_policy.2.2.2.2.2.2 640 480 8000001 (by norm_num)⟩

end VC
